import Mathlib

/-!
Verification of the sparse/dense index set in `src/collections/sparse_set.rs`
of the `kg-utils` repository.

The Rust type `SparseSet<T>` keeps two manually allocated buffers of length
`capacity`: `dense` (the first `len` slots hold the members in insertion
order) and `sparse` (maps a member's index to its dense position, stale
everywhere else).  We embed it shallowly: domain values are `Nat` (the
value-to-index conversion of the source is the identity for the intended
integral element types), buffers are `List Nat` of length `capacity`, and
uninitialized or stale memory is modelled by arbitrary list contents;
freshly allocated slots are filled with `0` as one concrete choice of
unspecified content, and every theorem whose truth must not depend on the
stale content is stated over arbitrary states satisfying the invariant.

Raw pointer reads are modelled by `List.get?`: a `none` result marks a read
outside the allocated buffer (undefined behavior in the source).  A Rust
`panic!` (e.g. `insert` on a value out of range) is modelled by `Option`
failure of the whole operation; the panic fires before any mutation, so no
post-state exists.
-/

structure SparseSet where
  capacity : Nat
  len : Nat
  dense : List Nat
  sparse : List Nat
deriving DecidableEq, Repr

/-- `SparseSet::with_capacity`: both buffers allocated with `capacity`
slots, uninitialized (modelled as `0`), and `len = 0`. -/
def withCapacity (c : Nat) : SparseSet :=
  { capacity := c, len := 0
    dense := List.replicate c 0
    sparse := List.replicate c 0 }

/-- `SparseSet::new` is `with_capacity(0)`. -/
def newSet : SparseSet := withCapacity 0

/-- The iteration sequence: `Deref` exposes the dense prefix `[0, len)`. -/
def elems (s : SparseSet) : List Nat :=
  s.dense.take s.len

/-- `SparseSet::contains`.  Mirrors the source line by line: an empty set
answers `false` with no memory read; otherwise the sparse slot at the
value's index is read unconditionally (`none` = out-of-bounds read, which
is undefined behavior in the source), and the dense read-back cross-check
decides membership. -/
def containsImpl (s : SparseSet) (v : Nat) : Option Bool :=
  if s.len = 0 then
    some false
  else
    (s.sparse.get? v).bind fun i =>
      if i < s.len then
        (s.dense.get? i).map fun j => v == j
      else
        some false

/-- `SparseSet::insert`.  `none` models the abort on a value out of
`[0, capacity)` (the source aborts with "value out of range" before any
mutation) and, vacuously, the impossible in-range failure of the inner
`contains` read. -/
def insertImpl (s : SparseSet) (v : Nat) : Option SparseSet :=
  if s.capacity ≤ v then
    none
  else
    (containsImpl s v).bind fun c =>
      if c then
        some s
      else
        some { capacity := s.capacity, len := s.len + 1
               dense := s.dense.set s.len v
               sparse := s.sparse.set v s.len }

/-- `SparseSet::clear`: only `len` is reset; buffer contents stay stale. -/
def clearImpl (s : SparseSet) : SparseSet :=
  { s with len := 0 }

/-- `realloc` of a buffer from its current length to `c` slots: contents
are preserved up to `min` of the two sizes, any grown tail is
uninitialized (modelled as `0`). -/
def reallocList (l : List Nat) (c : Nat) : List Nat :=
  l.take c ++ List.replicate (c - l.length) 0

/-- `SparseSet::resize`: a no-op when the capacity is unchanged; otherwise
both buffers are reallocated and `len` is reset to `0`. -/
def resizeImpl (s : SparseSet) (c : Nat) : SparseSet :=
  if s.capacity = c then
    s
  else
    { capacity := c, len := 0
      dense := reallocList s.dense c
      sparse := reallocList s.sparse c }

/-- `Clone::clone`: fresh buffers of the same capacity; the occupied dense
prefix (`len` elements) and the full sparse buffer (`capacity` elements)
are byte-copied; the rest of the fresh dense buffer stays uninitialized. -/
def cloneImpl (s : SparseSet) : SparseSet :=
  { capacity := s.capacity, len := s.len
    dense := s.dense.take s.len ++ List.replicate (s.capacity - s.len) 0
    sparse := s.sparse.take s.capacity
              ++ List.replicate (s.capacity - s.sparse.length) 0 }

/-- Folding `insert` over a list of values, aborting on the first
failure. -/
def insertList (s : SparseSet) : List Nat → Option SparseSet
  | [] => some s
  | v :: l => (insertImpl s v).bind fun s' => insertList s' l

/-- `Serialize::serialize`: the emitted sequence is exactly the iteration
sequence (the dense prefix). -/
def encodeImpl (s : SparseSet) : List Nat :=
  elems s

/-- The capacity computed by `Deserialize::deserialize`: `max = 0` then
`max = max(max, e)` over the elements.  Note the source then calls
`with_capacity(max)` — not `max + 1`. -/
def decodeCapacity (l : List Nat) : Nat :=
  l.foldl Nat.max 0

/-- `Deserialize::deserialize`: read the element list, compute the running
maximum, allocate a set of capacity equal to that maximum, and insert each
element in list order. -/
def decodeImpl (l : List Nat) : Option SparseSet :=
  insertList (withCapacity (decodeCapacity l)) l

/-- Modelled from the spec: one step of building the first-occurrence
sequence — append a value unless it was already seen. -/
def insertOnce (acc : List Nat) (x : Nat) : List Nat :=
  if x ∈ acc then acc else acc ++ [x]

/-- Modelled from the spec (reference for refinement): "iteration yields
each distinct inserted value exactly once, ordered by first insertion
time" — keep the first occurrence of each value, in order. -/
def firstOccurrenceSeq (l : List Nat) : List Nat :=
  l.foldl insertOnce []

/-- Structural well-formedness: both buffers have exactly `capacity` slots
and the valid prefix fits. -/
def Wf (s : SparseSet) : Prop :=
  s.dense.length = s.capacity ∧ s.sparse.length = s.capacity ∧
  s.len ≤ s.capacity

/-- The representation invariant: well-formed, and every dense slot of the
valid prefix holds an in-range value whose sparse slot points back at it
(which forces the prefix to be duplicate-free). -/
def SInv (s : SparseSet) : Prop :=
  Wf s ∧ ∀ i, i < s.len →
    s.dense.getD i 0 < s.capacity ∧ s.sparse.getD (s.dense.getD i 0) 0 = i

instance (s : SparseSet) : Decidable (Wf s) := by
  unfold Wf; infer_instance

instance (s : SparseSet) : Decidable (SInv s) := by
  unfold SInv; infer_instance

/-! ### List-level helper lemmas -/

/-- An in-bounds raw read returns the default-read value. -/
theorem get?_eq_some_getD (l : List Nat) (i : Nat) (h : i < l.length) :
    l.get? i = some (l.getD i 0) := by
  rw [List.get?_eq_getElem?, List.getD_eq_getElem?_getD,
    List.getElem?_eq_getElem h]
  rfl

/-- Membership in a prefix, phrased through default reads. -/
theorem mem_take_iff (l : List Nat) (n : Nat) (hn : n ≤ l.length) (x : Nat) :
    x ∈ l.take n ↔ ∃ i, i < n ∧ l.getD i 0 = x := by
  rw [List.mem_iff_getElem?]
  constructor
  · rintro ⟨i, hi⟩
    rw [List.getElem?_take] at hi
    by_cases hin : i < n
    · refine ⟨i, hin, ?_⟩
      rw [if_pos hin] at hi
      rw [List.getD_eq_getElem?_getD, hi]
      rfl
    · rw [if_neg hin] at hi
      exact absurd hi (by simp)
  · rintro ⟨i, hin, hx⟩
    refine ⟨i, ?_⟩
    rw [List.getElem?_take, if_pos hin,
      List.getElem?_eq_getElem (lt_of_lt_of_le hin hn)]
    rw [List.getD_eq_getElem?_getD,
      List.getElem?_eq_getElem (lt_of_lt_of_le hin hn)] at hx
    exact congrArg some hx

/-- Writing at slot `i` then reading slot `i` back. -/
theorem getD_set_self (l : List Nat) (i a : Nat) (h : i < l.length) :
    (l.set i a).getD i 0 = a := by
  rw [List.getD_eq_getElem?_getD, List.getElem?_set, if_pos rfl, if_pos h]
  rfl

/-- Writing at slot `i` leaves every other slot's read unchanged. -/
theorem getD_set_ne (l : List Nat) (i j a : Nat) (h : i ≠ j) :
    (l.set i a).getD j 0 = l.getD j 0 := by
  rw [List.getD_eq_getElem?_getD, List.getD_eq_getElem?_getD,
    List.getElem?_set, if_neg h]

/-- Writing one past a prefix extends the prefix by the written value. -/
theorem take_set_succ (l : List Nat) (n a : Nat) (h : n < l.length) :
    (l.set n a).take (n + 1) = l.take n ++ [a] := by
  have h1 : (l.set n a).take n = l.take n := by
    apply List.ext_getElem?
    intro i
    rw [List.getElem?_take, List.getElem?_take]
    by_cases hin : i < n
    · rw [if_pos hin, if_pos hin, List.getElem?_set, if_neg (by omega)]
    · rw [if_neg hin, if_neg hin]
  rw [List.take_succ, h1, List.getElem?_set, if_pos rfl, if_pos h]
  rfl

/-- A prefix whose positions read pairwise-distinct values is
duplicate-free. -/
theorem nodup_take_of_getD_inj (l : List Nat) (n : Nat) (hn : n ≤ l.length)
    (hinj : ∀ i j, i < n → j < n → l.getD i 0 = l.getD j 0 → i = j) :
    (l.take n).Nodup := by
  rw [List.nodup_iff_injective_get]
  intro x y hxy
  have hlen : (l.take n).length = n := by
    rw [List.length_take]
    omega
  have hx : (x : Nat) < n := by
    have := x.isLt
    omega
  have hy : (y : Nat) < n := by
    have := y.isLt
    omega
  have hgx : (l.take n).get x = l.getD (x : Nat) 0 := by
    rw [List.get_eq_getElem, List.getElem_take,
      List.getD_eq_getElem?_getD, List.getElem?_eq_getElem (by omega)]
    rfl
  have hgy : (l.take n).get y = l.getD (y : Nat) 0 := by
    rw [List.get_eq_getElem, List.getElem_take,
      List.getD_eq_getElem?_getD, List.getElem?_eq_getElem (by omega)]
    rfl
  have : l.getD (x : Nat) 0 = l.getD (y : Nat) 0 := by
    rw [← hgx, ← hgy, hxy]
  exact Fin.ext (hinj _ _ hx hy this)

/-! ### Invariant-level lemmas -/

/-- A fresh set iterates over nothing. -/
theorem elems_withCapacity (c : Nat) : elems (withCapacity c) = [] := rfl

/-- A fresh set satisfies the representation invariant. -/
theorem sinv_withCapacity (c : Nat) : SInv (withCapacity c) := by
  refine ⟨⟨by simp [withCapacity], by simp [withCapacity], by simp [withCapacity]⟩, ?_⟩
  intro i hi
  simp [withCapacity] at hi

/-- Membership in the iteration sequence, through dense-slot reads. -/
theorem mem_elems_iff (s : SparseSet) (hw : Wf s) (v : Nat) :
    v ∈ elems s ↔ ∃ i, i < s.len ∧ s.dense.getD i 0 = v := by
  obtain ⟨hd, _, hlc⟩ := hw
  exact mem_take_iff s.dense s.len (by omega) v

/-- Every member's index is in range. -/
theorem mem_elems_lt_capacity (s : SparseSet) (hs : SInv s) (v : Nat)
    (hv : v ∈ elems s) : v < s.capacity := by
  obtain ⟨hw, hcross⟩ := hs
  obtain ⟨i, hi, hget⟩ := (mem_elems_iff s hw v).mp hv
  have := (hcross i hi).1
  omega

/-- The valid dense prefix never holds a value twice. -/
theorem elems_nodup (s : SparseSet) (hs : SInv s) : (elems s).Nodup := by
  obtain ⟨⟨hd, hsp, hlc⟩, hcross⟩ := hs
  apply nodup_take_of_getD_inj s.dense s.len (by omega)
  intro i j hi hj hij
  have h1 := (hcross i hi).2
  have h2 := (hcross j hj).2
  rw [hij] at h1
  omega

/-- Pigeonhole: a set that is missing some in-range value is not full. -/
theorem len_lt_of_not_mem (s : SparseSet) (hs : SInv s) (v : Nat)
    (hv : v < s.capacity) (hm : v ∉ elems s) : s.len < s.capacity := by
  by_contra hfull
  obtain ⟨⟨hd, hsp, hlc⟩, hcross⟩ := hs
  have hlen : s.len = s.capacity := by omega
  have hnodup : (elems s).Nodup := elems_nodup s ⟨⟨hd, hsp, hlc⟩, hcross⟩
  have hlene : (elems s).length = s.capacity := by
    unfold elems
    rw [List.length_take]
    omega
  have hsub : (elems s).toFinset ⊆ Finset.range s.capacity := by
    intro x hx
    rw [List.mem_toFinset] at hx
    rw [Finset.mem_range]
    exact mem_elems_lt_capacity s ⟨⟨hd, hsp, hlc⟩, hcross⟩ x hx
  have hcard : (Finset.range s.capacity).card ≤ (elems s).toFinset.card := by
    rw [Finset.card_range, List.toFinset_card_of_nodup hnodup, hlene]
  have heq := Finset.eq_of_subset_of_card_le hsub hcard
  have : v ∈ (elems s).toFinset := by
    rw [heq, Finset.mem_range]
    exact hv
  rw [List.mem_toFinset] at this
  exact hm this

/-- `contains` on an in-range value decides membership in the iteration
sequence: the three-part cross-check is correct even though the sparse
buffer may hold stale data. -/
theorem contains_eq_mem (s : SparseSet) (hs : SInv s) (v : Nat)
    (hv : v < s.capacity) :
    containsImpl s v = some (decide (v ∈ elems s)) := by
  obtain ⟨⟨hd, hsp, hlc⟩, hcross⟩ := hs
  unfold containsImpl
  by_cases h0 : s.len = 0
  · rw [if_pos h0]
    have : elems s = [] := by
      unfold elems
      rw [h0]
      rfl
    simp [this]
  · rw [if_neg h0]
    have hvs : v < s.sparse.length := by omega
    rw [get?_eq_some_getD s.sparse v hvs, Option.some_bind]
    by_cases hil : s.sparse.getD v 0 < s.len
    · rw [if_pos hil]
      have hid : s.sparse.getD v 0 < s.dense.length := by omega
      rw [get?_eq_some_getD s.dense _ hid, Option.map_some']
      congr 1
      by_cases hm : v ∈ elems s
      · obtain ⟨i, hi, hget⟩ :=
          (mem_elems_iff s ⟨hd, hsp, hlc⟩ v).mp hm
        have hback := (hcross i hi).2
        rw [hget] at hback
        rw [hback, hget]
        simp [hm]
      · have hne : v ≠ s.dense.getD (s.sparse.getD v 0) 0 := by
          intro hvj
          apply hm
          rw [mem_elems_iff s ⟨hd, hsp, hlc⟩ v]
          exact ⟨s.sparse.getD v 0, hil, hvj.symm⟩
        rw [decide_eq_false hm, beq_eq_false_iff_ne]
        exact hne
    · rw [if_neg hil]
      congr 1
      have hm : v ∉ elems s := by
        intro hmem
        obtain ⟨i, hi, hget⟩ :=
          (mem_elems_iff s ⟨hd, hsp, hlc⟩ v).mp hmem
        have hback := (hcross i hi).2
        rw [hget] at hback
        omega
      simp [hm]

/-- `contains` on an out-of-range value with a non-empty set reads past
the sparse buffer (undefined behavior in the source, `none` here). -/
theorem contains_oob (s : SparseSet) (hw : Wf s) (v : Nat)
    (h0 : s.len ≠ 0) (hv : s.capacity ≤ v) : containsImpl s v = none := by
  obtain ⟨hd, hsp, hlc⟩ := hw
  unfold containsImpl
  rw [if_neg h0]
  have hnone : s.sparse.get? v = none := List.get?_eq_none.mpr (by omega)
  rw [hnone, Option.none_bind]

/-- After `clear`, `contains` answers `false` for every value, in-range or
not, without touching either buffer. -/
theorem contains_clear (s : SparseSet) (v : Nat) :
    containsImpl (clearImpl s) v = some false := rfl

/-- Inserting a value that is already a member returns the set unchanged. -/
theorem insert_mem (s : SparseSet) (hs : SInv s) (v : Nat)
    (hm : v ∈ elems s) : insertImpl s v = some s := by
  have hv : v < s.capacity := mem_elems_lt_capacity s hs v hm
  unfold insertImpl
  rw [if_neg (by omega), contains_eq_mem s hs v hv]
  simp [hm]

/-- Inserting a fresh in-range value produces exactly the state written by
the source: the value at `dense[len]`, `len` at `sparse[v]`, `len + 1`. -/
theorem insert_not_mem (s : SparseSet) (hs : SInv s) (v : Nat)
    (hv : v < s.capacity) (hm : v ∉ elems s) :
    insertImpl s v =
      some { capacity := s.capacity, len := s.len + 1
             dense := s.dense.set s.len v
             sparse := s.sparse.set v s.len } := by
  unfold insertImpl
  rw [if_neg (by omega), contains_eq_mem s hs v hv]
  simp [hm]

/-- A successful fresh insert preserves the invariant, keeps the capacity,
bumps `len`, and appends the value to the iteration sequence. -/
theorem insert_new_spec (s : SparseSet) (hs : SInv s) (v : Nat)
    (hv : v < s.capacity) (hm : v ∉ elems s) :
    ∃ s', insertImpl s v = some s' ∧ SInv s' ∧ s'.capacity = s.capacity ∧
      s'.len = s.len + 1 ∧ elems s' = elems s ++ [v] := by
  obtain ⟨⟨hd, hsp, hlc⟩, hcross⟩ := hs
  have hlen : s.len < s.capacity :=
    len_lt_of_not_mem s ⟨⟨hd, hsp, hlc⟩, hcross⟩ v hv hm
  refine ⟨_, insert_not_mem s ⟨⟨hd, hsp, hlc⟩, hcross⟩ v hv hm,
    ⟨⟨?_, ?_, ?_⟩, ?_⟩, rfl, rfl, ?_⟩
  · simp [List.length_set, hd]
  · simp [List.length_set, hsp]
  · show s.len + 1 ≤ s.capacity
    omega
  · intro i hi
    show (s.dense.set s.len v).getD i 0 < s.capacity ∧
      (s.sparse.set v s.len).getD ((s.dense.set s.len v).getD i 0) 0 = i
    by_cases hilen : i = s.len
    · subst hilen
      rw [getD_set_self s.dense s.len v (by omega)]
      exact ⟨hv, getD_set_self s.sparse v s.len (by omega)⟩
    · have hi' : i < s.len := by
        have : i < s.len + 1 := hi
        omega
      rw [getD_set_ne s.dense s.len i v (by omega)]
      obtain ⟨hc1, hc2⟩ := hcross i hi'
      refine ⟨hc1, ?_⟩
      have hdv : v ≠ s.dense.getD i 0 := by
        intro he
        apply hm
        rw [mem_elems_iff s ⟨hd, hsp, hlc⟩ v]
        exact ⟨i, hi', he.symm⟩
      rw [getD_set_ne s.sparse v _ s.len hdv]
      exact hc2
  · show (s.dense.set s.len v).take (s.len + 1) = s.dense.take s.len ++ [v]
    exact take_set_succ s.dense s.len v (by omega)

/-- Folding `insert` over in-range values succeeds and computes exactly the
first-occurrence fold on the iteration sequence. -/
theorem insertList_spec (l : List Nat) :
    ∀ s : SparseSet, SInv s → (∀ v ∈ l, v < s.capacity) →
    ∃ s', insertList s l = some s' ∧ SInv s' ∧ s'.capacity = s.capacity ∧
      elems s' = l.foldl insertOnce (elems s) := by
  induction l with
  | nil =>
    intro s hs _
    exact ⟨s, rfl, hs, rfl, rfl⟩
  | cons v t ih =>
    intro s hs hrange
    have hv : v < s.capacity := hrange v (List.mem_cons_self v t)
    by_cases hm : v ∈ elems s
    · have h1 := insert_mem s hs v hm
      obtain ⟨s', h2, h3, h4, h5⟩ :=
        ih s hs (fun w hw => hrange w (List.mem_cons_of_mem v hw))
      refine ⟨s', ?_, h3, h4, ?_⟩
      · simp only [insertList, h1, Option.some_bind]
        exact h2
      · rw [List.foldl_cons]
        have hstep : insertOnce (elems s) v = elems s := by
          unfold insertOnce
          rw [if_pos hm]
        rw [hstep]
        exact h5
    · obtain ⟨s1, e1, hs1, hc1, _, he1⟩ := insert_new_spec s hs v hv hm
      obtain ⟨s', h2, h3, h4, h5⟩ :=
        ih s1 hs1 (fun w hw => by
          rw [hc1]
          exact hrange w (List.mem_cons_of_mem v hw))
      refine ⟨s', ?_, h3, by rw [h4, hc1], ?_⟩
      · simp only [insertList, e1, Option.some_bind]
        exact h2
      · rw [List.foldl_cons]
        have hstep : insertOnce (elems s) v = elems s ++ [v] := by
          unfold insertOnce
          rw [if_neg hm]
        rw [hstep, ← he1]
        exact h5

/-- The first-occurrence fold never invents or loses values. -/
theorem mem_foldl_insertOnce (l : List Nat) :
    ∀ (acc : List Nat) (y : Nat),
      y ∈ l.foldl insertOnce acc ↔ y ∈ acc ∨ y ∈ l := by
  induction l with
  | nil =>
    intro acc y
    simp
  | cons x t ih =>
    intro acc y
    rw [List.foldl_cons, ih]
    unfold insertOnce
    by_cases h : x ∈ acc
    · rw [if_pos h]
      constructor
      · rintro (hy | hy)
        · exact Or.inl hy
        · exact Or.inr (List.mem_cons_of_mem x hy)
      · rintro (hy | hy)
        · exact Or.inl hy
        · rcases List.mem_cons.mp hy with rfl | hy2
          · exact Or.inl h
          · exact Or.inr hy2
    · rw [if_neg h]
      simp only [List.mem_append, List.mem_singleton, List.mem_cons]
      tauto

/-- The first-occurrence fold keeps a duplicate-free accumulator
duplicate-free. -/
theorem nodup_foldl_insertOnce (l : List Nat) :
    ∀ acc : List Nat, acc.Nodup → (l.foldl insertOnce acc).Nodup := by
  induction l with
  | nil =>
    intro acc h
    exact h
  | cons x t ih =>
    intro acc h
    rw [List.foldl_cons]
    apply ih
    unfold insertOnce
    by_cases hx : x ∈ acc
    · rw [if_pos hx]
      exact h
    · rw [if_neg hx]
      rw [List.nodup_append]
      refine ⟨h, List.nodup_singleton x, ?_⟩
      intro a ha hax
      rw [List.mem_singleton] at hax
      subst hax
      exact hx ha

/-- The first-occurrence sequence is duplicate-free. -/
theorem firstOccurrenceSeq_nodup (l : List Nat) :
    (firstOccurrenceSeq l).Nodup :=
  nodup_foldl_insertOnce l [] List.nodup_nil

/-- The first-occurrence sequence has the same members as its input. -/
theorem mem_firstOccurrenceSeq (l : List Nat) (y : Nat) :
    y ∈ firstOccurrenceSeq l ↔ y ∈ l := by
  unfold firstOccurrenceSeq
  rw [mem_foldl_insertOnce]
  simp

/-- The first-occurrence sequence counts the distinct values of its
input. -/
theorem length_firstOccurrenceSeq (l : List Nat) :
    (firstOccurrenceSeq l).length = l.toFinset.card := by
  have h1 : (firstOccurrenceSeq l).Nodup := firstOccurrenceSeq_nodup l
  have h2 : (firstOccurrenceSeq l).toFinset = l.toFinset := by
    apply Finset.ext
    intro y
    rw [List.mem_toFinset, List.mem_toFinset]
    exact mem_firstOccurrenceSeq l y
  rw [← List.toFinset_card_of_nodup h1, h2]

/-- Reading inside a copied prefix sees the original buffer. -/
theorem getD_take_append (l : List Nat) (n i : Nat) (rest : List Nat)
    (hi : i < n) (hn : n ≤ l.length) :
    (l.take n ++ rest).getD i 0 = l.getD i 0 := by
  rw [List.getD_eq_getElem?_getD, List.getD_eq_getElem?_getD,
    List.getElem?_append_left (by rw [List.length_take]; omega),
    List.getElem?_take, if_pos hi]

/-- A reallocated buffer has exactly the requested number of slots. -/
theorem length_reallocList (l : List Nat) (c : Nat) :
    (reallocList l c).length = c := by
  unfold reallocList
  rw [List.length_append, List.length_take, List.length_replicate]
  omega

/-- `clear` keeps the invariant (the prefix becomes empty). -/
theorem sinv_clear (s : SparseSet) (hw : Wf s) : SInv (clearImpl s) := by
  obtain ⟨hd, hsp, _⟩ := hw
  refine ⟨⟨hd, hsp, Nat.zero_le _⟩, ?_⟩
  intro i hi
  exact absurd hi (by simp [clearImpl])

/-- `resize` keeps the invariant: either a no-op, or a fresh empty set
over reallocated buffers. -/
theorem sinv_resize (s : SparseSet) (hs : SInv s) (c : Nat) :
    SInv (resizeImpl s c) := by
  unfold resizeImpl
  by_cases h : s.capacity = c
  · rw [if_pos h]
    exact hs
  · rw [if_neg h]
    refine ⟨⟨length_reallocList s.dense c, length_reallocList s.sparse c,
      Nat.zero_le _⟩, ?_⟩
    intro i hi
    exact absurd hi (by simp)

/-- Under well-formedness, copying `capacity` sparse slots reproduces the
whole sparse buffer. -/
theorem clone_sparse (s : SparseSet) (hw : Wf s) :
    (cloneImpl s).sparse = s.sparse := by
  obtain ⟨_, hsp, _⟩ := hw
  show s.sparse.take s.capacity ++ List.replicate (s.capacity - s.sparse.length) 0
    = s.sparse
  rw [hsp, Nat.sub_self, List.replicate_zero, List.append_nil]
  exact List.take_of_length_le (by omega)

/-- The clone's dense buffer also has `capacity` slots. -/
theorem clone_dense_length (s : SparseSet) (hw : Wf s) :
    (cloneImpl s).dense.length = s.capacity := by
  obtain ⟨hd, _, hlc⟩ := hw
  show (s.dense.take s.len ++ List.replicate (s.capacity - s.len) 0).length
    = s.capacity
  rw [List.length_append, List.length_take, List.length_replicate]
  omega

/-- The clone iterates over exactly the source's sequence. -/
theorem clone_elems (s : SparseSet) (hw : Wf s) :
    elems (cloneImpl s) = elems s := by
  obtain ⟨hd, _, hlc⟩ := hw
  show (s.dense.take s.len ++ List.replicate (s.capacity - s.len) 0).take s.len
    = s.dense.take s.len
  exact List.take_left' (by rw [List.length_take]; omega)

/-- `clone` keeps the invariant. -/
theorem sinv_clone (s : SparseSet) (hs : SInv s) : SInv (cloneImpl s) := by
  obtain ⟨⟨hd, hsp, hlc⟩, hcross⟩ := hs
  refine ⟨⟨clone_dense_length s ⟨hd, hsp, hlc⟩, ?_, hlc⟩, ?_⟩
  · rw [clone_sparse s ⟨hd, hsp, hlc⟩]
    exact hsp
  · intro i hi
    have hi' : i < s.len := hi
    have hdense : (cloneImpl s).dense.getD i 0 = s.dense.getD i 0 :=
      getD_take_append s.dense s.len i _ hi' (by omega)
    rw [clone_sparse s ⟨hd, hsp, hlc⟩, hdense]
    exact hcross i hi'

/-- The clone answers every `contains` query exactly as the source. -/
theorem clone_contains (s : SparseSet) (hw : Wf s) (v : Nat) :
    containsImpl (cloneImpl s) v = containsImpl s v := by
  obtain ⟨hd, hsp, hlc⟩ := hw
  unfold containsImpl
  rw [show (cloneImpl s).len = s.len from rfl, clone_sparse s ⟨hd, hsp, hlc⟩]
  by_cases h0 : s.len = 0
  · rw [if_pos h0, if_pos h0]
  · rw [if_neg h0, if_neg h0]
    congr 1
    funext i
    by_cases hil : i < s.len
    · rw [if_pos hil, if_pos hil]
      have hi1 : i < (cloneImpl s).dense.length := by
        rw [clone_dense_length s ⟨hd, hsp, hlc⟩]
        omega
      have hi2 : i < s.dense.length := by omega
      have heq : (cloneImpl s).dense.getD i 0 = s.dense.getD i 0 :=
        getD_take_append s.dense s.len i _ hil (by omega)
      rw [get?_eq_some_getD _ _ hi1, get?_eq_some_getD _ _ hi2, heq]
    · rw [if_neg hil, if_neg hil]

/-- Any successful insert preserves the invariant and the capacity, and
makes the value a member. -/
theorem sinv_insert (s : SparseSet) (hs : SInv s) (v : Nat) (s' : SparseSet)
    (hins : insertImpl s v = some s') :
    SInv s' ∧ s'.capacity = s.capacity ∧ v ∈ elems s' := by
  by_cases hv : v < s.capacity
  · by_cases hm : v ∈ elems s
    · have h1 := insert_mem s hs v hm
      rw [h1] at hins
      have h2 := Option.some.inj hins
      subst h2
      exact ⟨hs, rfl, hm⟩
    · obtain ⟨s2, e2, hs2, hc2, _, he2⟩ := insert_new_spec s hs v hv hm
      rw [e2] at hins
      have h2 := Option.some.inj hins
      subst h2
      refine ⟨hs2, hc2, ?_⟩
      rw [he2]
      exact List.mem_append_right _ (by simp)
  · exfalso
    unfold insertImpl at hins
    rw [if_pos (by omega)] at hins
    exact Option.noConfusion hins

/-! ### Claims -/

/-- C1: the claim says `decode` builds a set of capacity `max + 1` (10 for
the list `[5, 2, 9]`) and reproduces the list as iteration sequence.  The
source instead calls `with_capacity(max)`: for `[5, 2, 9]` it computes
capacity 9, and inserting the element 9 aborts with "value out of range"
(`none`), so decoding aborts on every list that contains its own maximum —
i.e. on every non-empty list.  The claim describes the evident intent; the
code has an off-by-one slip. -/
theorem sparseSet_C1_decode_aborts_on_max :
    decodeCapacity [5, 2, 9] = 9 ∧ decodeImpl [5, 2, 9] = none := by
  decide

/-- C2: the claim says `decode (encode S)` always succeeds and reproduces
`S`'s iteration sequence.  Take `S` = the capacity-1 set containing `0`
(reached by one insert): `encode S = [0]`, but decoding `[0]` computes
capacity `max = 0` and the very first insert aborts, so the round trip
fails for every non-empty set. -/
theorem sparseSet_C2_roundtrip_aborts :
    (insertList (withCapacity 1) [0]).map encodeImpl = some [0] ∧
    decodeImpl [0] = none ∧
    (insertList (withCapacity 1) [0]).bind
      (fun s => decodeImpl (encodeImpl s)) = none := by
  decide

/-- C3 counterexample: the claim says every call to `resize` empties the
set.  But `resize` with the current capacity is a no-op in the source
(`if self.capacity != capacity`): on the reachable invariant state
`{capacity 1, len 1, dense [0], sparse [0]}`, `resize(1)` returns the set
unchanged with `len = 1 ≠ 0`. -/
theorem sparseSet_C3_resize_noop_cex :
    insertList (withCapacity 1) [0] =
      some { capacity := 1, len := 1, dense := [0], sparse := [0] } ∧
    SInv { capacity := 1, len := 1, dense := [0], sparse := [0] } ∧
    resizeImpl { capacity := 1, len := 1, dense := [0], sparse := [0] } 1 =
      { capacity := 1, len := 1, dense := [0], sparse := [0] } ∧
    (resizeImpl { capacity := 1, len := 1, dense := [0], sparse := [0] } 1).len
      = 1 := by
  decide

/-- C3 amended: `resize(new_capacity)` with a capacity different from the
current one reallocates both buffers to the new capacity and resets
`len = 0`, discarding all entries; `resize` with the current capacity is a
no-op that keeps every entry. -/
theorem sparseSet_C3_resize_amended (s : SparseSet) (c : Nat) :
    (c ≠ s.capacity →
      (resizeImpl s c).capacity = c ∧ (resizeImpl s c).len = 0 ∧
      (resizeImpl s c).dense = reallocList s.dense c ∧
      (resizeImpl s c).sparse = reallocList s.sparse c) ∧
    (c = s.capacity → resizeImpl s c = s) := by
  constructor
  · intro h
    unfold resizeImpl
    rw [if_neg (fun he => h he.symm)]
    exact ⟨rfl, rfl, rfl, rfl⟩
  · intro h
    unfold resizeImpl
    rw [if_pos h.symm]

theorem sparseSet_C3_resize_amended_witness :
    (resizeImpl (withCapacity 2) 3).capacity = 3 ∧
    (resizeImpl (withCapacity 2) 3).len = 0 ∧
    resizeImpl (withCapacity 2) 2 = withCapacity 2 :=
  ⟨((sparseSet_C3_resize_amended (withCapacity 2) 3).1 (by decide)).1,
   ((sparseSet_C3_resize_amended (withCapacity 2) 3).1 (by decide)).2.1,
   (sparseSet_C3_resize_amended (withCapacity 2) 2).2 (by decide)⟩

/-- C4 counterexample: the claim says `contains` fails fast and never reads
out of bounds.  On the reachable invariant state
`{capacity 1, len 1, dense [0], sparse [0]}`, the query `contains(5)`
reads `sparse[5]` — five slots past a one-slot buffer (`none` marks that
out-of-bounds read, undefined behavior in the source); there is no check
and no error path. -/
theorem sparseSet_C4_contains_oob_cex :
    insertList (withCapacity 1) [0] =
      some { capacity := 1, len := 1, dense := [0], sparse := [0] } ∧
    SInv { capacity := 1, len := 1, dense := [0], sparse := [0] } ∧
    containsImpl { capacity := 1, len := 1, dense := [0], sparse := [0] } 5
      = none := by
  decide

/-- C4 amended: `contains` on an empty set answers `false` with no memory
read at all; on an in-range query it performs only in-bounds reads and
returns exactly membership in the iteration sequence; but on a non-empty
set and an out-of-range query it performs an unchecked out-of-bounds read
of the sparse buffer (undefined behavior) instead of failing fast. -/
theorem sparseSet_C4_contains_amended (s : SparseSet) (v : Nat)
    (hs : SInv s) :
    (s.len = 0 → containsImpl s v = some false) ∧
    (v < s.capacity → containsImpl s v = some (decide (v ∈ elems s))) ∧
    (s.len ≠ 0 → s.capacity ≤ v → containsImpl s v = none) := by
  refine ⟨?_, ?_, ?_⟩
  · intro h0
    unfold containsImpl
    rw [if_pos h0]
  · intro hv
    exact contains_eq_mem s hs v hv
  · intro h0 hv
    exact contains_oob s hs.1 v h0 hv

theorem sparseSet_C4_contains_amended_witness :
    containsImpl { capacity := 1, len := 1, dense := [0], sparse := [0] } 5
      = none ∧
    containsImpl { capacity := 1, len := 1, dense := [0], sparse := [0] } 0
      = some (decide
        (0 ∈ elems { capacity := 1, len := 1, dense := [0], sparse := [0] })) :=
  ⟨(sparseSet_C4_contains_amended
      { capacity := 1, len := 1, dense := [0], sparse := [0] } 5
      (by decide)).2.2 (by decide) (by decide),
   (sparseSet_C4_contains_amended
      { capacity := 1, len := 1, dense := [0], sparse := [0] } 0
      (by decide)).2.1 (by decide)⟩

/-- C5: inserting a value whose index is out of `[0, capacity)` aborts
("value out of range", the `CapacityExceeded` precondition violation of
the spec) before any mutation, so no post-state exists and the last valid
state keeps its `len`; Scenario B: with capacity 4, inserting 0, 1, 2, 3
succeeds with `len = 4`, and inserting 4 aborts. -/
theorem sparseSet_C5_insert_out_of_range (s : SparseSet) (v : Nat)
    (hv : s.capacity ≤ v) :
    insertImpl s v = none ∧
    insertList (withCapacity 4) [0, 1, 2, 3] =
      some { capacity := 4, len := 4
             dense := [0, 1, 2, 3], sparse := [0, 1, 2, 3] } ∧
    insertImpl { capacity := 4, len := 4
                 dense := [0, 1, 2, 3], sparse := [0, 1, 2, 3] } 4 = none := by
  refine ⟨?_, by decide, by decide⟩
  unfold insertImpl
  rw [if_pos hv]

theorem sparseSet_C5_insert_out_of_range_witness :
    insertImpl { capacity := 4, len := 4
                 dense := [0, 1, 2, 3], sparse := [0, 1, 2, 3] } 4 = none :=
  (sparseSet_C5_insert_out_of_range
    { capacity := 4, len := 4, dense := [0, 1, 2, 3], sparse := [0, 1, 2, 3] }
    4 (by decide)).1

/-- C6: `insert` is idempotent — inserting a value the set already
contains (per `contains`) returns the set unchanged — and for every
sequence of inserts of in-range values into a fresh set, `len` afterwards
equals the number of distinct values inserted. -/
theorem sparseSet_C6_idempotent_distinct_count :
    (∀ s v, SInv s → containsImpl s v = some true →
      insertImpl s v = some s) ∧
    (∀ c, ∀ l : List Nat, (∀ v ∈ l, v < c) →
      ∃ s', insertList (withCapacity c) l = some s' ∧
        s'.len = l.toFinset.card) := by
  constructor
  · intro s v hs hc
    by_cases hv : v < s.capacity
    · rw [contains_eq_mem s hs v hv] at hc
      have hm : v ∈ elems s := of_decide_eq_true (Option.some.inj hc)
      exact insert_mem s hs v hm
    · exfalso
      by_cases h0 : s.len = 0
      · unfold containsImpl at hc
        rw [if_pos h0] at hc
        exact Bool.noConfusion (Option.some.inj hc)
      · rw [contains_oob s hs.1 v h0 (by omega)] at hc
        exact Option.noConfusion hc
  · intro c l hl
    obtain ⟨s', h1, h2, _, h4⟩ :=
      insertList_spec l (withCapacity c) (sinv_withCapacity c) hl
    refine ⟨s', h1, ?_⟩
    have hlen : (elems s').length = s'.len := by
      unfold elems
      rw [List.length_take]
      have h5 := h2.1.1
      have h6 := h2.1.2.2
      omega
    rw [← hlen, h4, elems_withCapacity]
    exact length_firstOccurrenceSeq l

theorem sparseSet_C6_witness :
    insertImpl { capacity := 1, len := 1, dense := [0], sparse := [0] } 0 =
      some { capacity := 1, len := 1, dense := [0], sparse := [0] } ∧
    ∃ s', insertList (withCapacity 8) [3, 1, 3, 5] = some s' ∧
      s'.len = [3, 1, 3, 5].toFinset.card :=
  ⟨sparseSet_C6_idempotent_distinct_count.1
      { capacity := 1, len := 1, dense := [0], sparse := [0] } 0
      (by decide) (by decide),
   sparseSet_C6_idempotent_distinct_count.2 8 [3, 1, 3, 5] (by decide)⟩

/-- C7: folding inserts of in-range values into a fresh set makes the
iteration sequence exactly the first-occurrence subsequence of the insert
sequence — each distinct value once, ordered by first insertion,
unaffected by later duplicates; Scenario A: capacity 8, inserting
3, 1, 3, 5 gives `len = 3`, iteration `[3, 1, 5]`, `contains 1 = true`
and `contains 7 = false`. -/
theorem sparseSet_C7_iteration_order :
    (∀ c, ∀ l : List Nat, (∀ v ∈ l, v < c) →
      ∃ s', insertList (withCapacity c) l = some s' ∧
        elems s' = firstOccurrenceSeq l ∧ (elems s').Nodup ∧
        ∀ y, y ∈ elems s' ↔ y ∈ l) ∧
    (insertList (withCapacity 8) [3, 1, 3, 5]).map
      (fun t => (t.len, elems t)) = some (3, [3, 1, 5]) ∧
    (insertList (withCapacity 8) [3, 1, 3, 5]).map
      (fun t => containsImpl t 1) = some (some true) ∧
    (insertList (withCapacity 8) [3, 1, 3, 5]).map
      (fun t => containsImpl t 7) = some (some false) := by
  refine ⟨?_, by decide, by decide, by decide⟩
  intro c l hl
  obtain ⟨s', h1, h2, _, h4⟩ :=
    insertList_spec l (withCapacity c) (sinv_withCapacity c) hl
  have helems : elems s' = firstOccurrenceSeq l := by
    unfold firstOccurrenceSeq
    rw [h4, elems_withCapacity]
  refine ⟨s', h1, helems, elems_nodup s' h2, ?_⟩
  intro y
  rw [helems]
  exact mem_firstOccurrenceSeq l y

theorem sparseSet_C7_witness :
    ∃ s', insertList (withCapacity 8) [3, 1, 3, 5] = some s' ∧
      elems s' = firstOccurrenceSeq [3, 1, 3, 5] ∧ (elems s').Nodup ∧
      ∀ y, y ∈ elems s' ↔ y ∈ [3, 1, 3, 5] :=
  sparseSet_C7_iteration_order.1 8 [3, 1, 3, 5] (by decide)

/-- C8: after a successful `insert(v)`, `contains(v)` answers true; after
`clear`, `len = 0`, the capacity is unchanged, and `contains` answers
`false` for every value whatsoever — the empty-set check short-circuits
before any conversion or read, so this covers out-of-range queries and
the capacity-0 set. -/
theorem sparseSet_C8_insert_contains_clear :
    (∀ s v s', SInv s → insertImpl s v = some s' →
      containsImpl s' v = some true) ∧
    (∀ s : SparseSet, (clearImpl s).len = 0 ∧
      (clearImpl s).capacity = s.capacity ∧
      ∀ v, containsImpl (clearImpl s) v = some false) := by
  constructor
  · intro s v s' hs hins
    obtain ⟨hs', _, hm'⟩ := sinv_insert s hs v s' hins
    have hv' : v < s'.capacity := mem_elems_lt_capacity s' hs' v hm'
    rw [contains_eq_mem s' hs' v hv', decide_eq_true hm']
  · intro s
    exact ⟨rfl, rfl, fun v => contains_clear s v⟩

theorem sparseSet_C8_witness :
    containsImpl { capacity := 1, len := 1, dense := [0], sparse := [0] } 0
      = some true :=
  sparseSet_C8_insert_contains_clear.1 (withCapacity 1) 0
    { capacity := 1, len := 1, dense := [0], sparse := [0] }
    (by decide) (by decide)

/-- C9: every operation maps an invariant-satisfying state to an
invariant-satisfying state: `clear`, `resize` at any capacity, `clone`,
and every successful `insert` preserve the invariant (in-range,
pairwise-distinct dense prefix with the sparse back-pointers, and
`len ≤ capacity`); distinctness of the prefix is stated explicitly.
`contains` takes the state immutably and returns it untouched in this
pure embedding. -/
theorem sparseSet_C9_invariant_preserved (s : SparseSet) (hs : SInv s) :
    SInv (clearImpl s) ∧ (∀ c, SInv (resizeImpl s c)) ∧
    SInv (cloneImpl s) ∧
    (∀ v s', insertImpl s v = some s' → SInv s') ∧
    (elems s).Nodup ∧ s.len ≤ s.capacity :=
  ⟨sinv_clear s hs.1, fun c => sinv_resize s hs c, sinv_clone s hs,
   fun v s' hins => (sinv_insert s hs v s' hins).1,
   elems_nodup s hs, hs.1.2.2⟩

theorem sparseSet_C9_witness :
    SInv (clearImpl { capacity := 1, len := 1, dense := [0], sparse := [0] }) ∧
    SInv (resizeImpl { capacity := 1, len := 1, dense := [0], sparse := [0] } 2) ∧
    SInv (cloneImpl { capacity := 1, len := 1, dense := [0], sparse := [0] }) :=
  have h := sparseSet_C9_invariant_preserved
    { capacity := 1, len := 1, dense := [0], sparse := [0] } (by decide)
  ⟨h.1, h.2.1 2, h.2.2.1⟩

/-- C10: `clone` yields a set with identical capacity and `len`, the same
iteration sequence, a byte-equal sparse buffer, and identical observable
`contains` behavior on every query.  The clone is a separate value over
freshly built buffers in this pure embedding, so operations on either set
construct new states and can never alter the other — buffer
non-aliasing, a memory-layout property, holds by construction here. -/
theorem sparseSet_C10_clone_observables (s : SparseSet) (hw : Wf s) :
    (cloneImpl s).capacity = s.capacity ∧ (cloneImpl s).len = s.len ∧
    elems (cloneImpl s) = elems s ∧ (cloneImpl s).sparse = s.sparse ∧
    ∀ v, containsImpl (cloneImpl s) v = containsImpl s v :=
  ⟨rfl, rfl, clone_elems s hw, clone_sparse s hw,
   fun v => clone_contains s hw v⟩

theorem sparseSet_C10_witness :
    elems (cloneImpl { capacity := 1, len := 1, dense := [0], sparse := [0] })
      = elems { capacity := 1, len := 1, dense := [0], sparse := [0] } ∧
    containsImpl
        (cloneImpl { capacity := 1, len := 1, dense := [0], sparse := [0] }) 0
      = containsImpl { capacity := 1, len := 1, dense := [0], sparse := [0] } 0 :=
  have h := sparseSet_C10_clone_observables
    { capacity := 1, len := 1, dense := [0], sparse := [0] } (by decide)
  ⟨h.2.2.1, h.2.2.2.2 0⟩
